import Mathlib

/-!
Verification of the user-POS dictionary engine of mozc
(src/src/dictionary/user_pos.h).

The header declares the engine and defines its token-array iterator
inline; the query implementations live in a source file that is not part
of the excerpt, so those operations are modelled from the specification
(each such definition says so in its doc comment).  The data model — an
interned, sorted string table and an array of 8-byte token records sorted
by POS index — follows the binary-format documentation in the header.
-/

namespace UserPos

/-- Token record decoded from one 8-byte little-endian block of the token
array, as documented in user_pos.h: POS index, value-suffix index,
key-suffix index, conjugation id, each an unsigned 16-bit field. -/
structure TokenRecord where
  posIndex : Nat
  valueSuffixIndex : Nat
  keySuffixIndex : Nat
  conjugationId : Nat
  deriving DecidableEq, Repr, Inhabited

/-- Output token produced by GetTokens: stem key and value with suffixes
appended, the resolved POS id and the record's conjugation id. -/
structure Token where
  key : String
  value : String
  posId : Nat
  conjugationId : Nat
  deriving DecidableEq, Repr, Inhabited

/-- Reads an unsigned 16-bit little-endian value from a byte buffer at a
byte offset, exactly as the iterator's reinterpret_cast of two bytes on a
little-endian machine does (bytes are Nat values below 256). -/
def u16le (bytes : List Nat) (off : Nat) : Nat :=
  bytes.getD off 0 + 256 * bytes.getD (off + 1) 0

/-- Decodes the record starting at a byte offset, reading the four fields
at offsets +0, +2, +4 and +6 as the iterator accessors pos_index,
value_suffix_index, key_suffix_index and conjugation_id do. -/
def decodeRecordAt (bytes : List Nat) (off : Nat) : TokenRecord :=
  { posIndex := u16le bytes off
    valueSuffixIndex := u16le bytes (off + 2)
    keySuffixIndex := u16le bytes (off + 4)
    conjugationId := u16le bytes (off + 6) }

/-- Decodes the whole token-array buffer into its sequence of records,
one per 8-byte block, in storage order. -/
def decodeAll (bytes : List Nat) : List TokenRecord :=
  (List.range (bytes.length / 8)).map (fun i => decodeRecordAt bytes (8 * i))

/-- Iterator over the token array, embedded as its byte offset from the
start of the buffer (the header stores a raw pointer; begin is offset 0,
advancing by n moves the offset by n * kTokenByteLength = 8 * n). -/
def iterAdvance (off n : Nat) : Nat :=
  off + 8 * n

/-- The iterator accessor pos_index: reads the 16-bit field at the
iterator's current byte offset. -/
def iterPosIndex (bytes : List Nat) (off : Nat) : Nat :=
  u16le bytes off

/-- The iterator's dereference operator: defined in the header as
pos_index(), so comparisons over dereferenced iterators compare POS
indices. -/
def iterDeref (bytes : List Nat) (off : Nat) : Nat :=
  iterPosIndex bytes off

/-- The user-POS engine: the decoded token array and the string table.
The string table is the external SerializedStringArray, treated as an
abstract sorted, deduplicated sequence of strings, as the spec directs. -/
structure UserPOS where
  tokens : List TokenRecord
  table : List String
  deriving Repr

/-- Modelled from the spec (construction-time validation; the constructor
body is not in the excerpt): building the engine from a token-array byte
buffer fails with a format error when the buffer length is not a multiple
of 8, and otherwise decodes length / 8 records. -/
def create (bytes : List Nat) (table : List String) : Option UserPOS :=
  if bytes.length % 8 = 0 then
    some { tokens := decodeAll bytes, table := table }
  else
    none

/-- Modelled from the spec (StringTable.get of the external
SerializedStringArray): returns the string at the index when it is in
range and fails with an explicit out-of-range error (none) otherwise. -/
def stGet (table : List String) (i : Nat) : Option String :=
  table.get? i

/-- Looks an index up in the string table, with the empty string for an
out-of-range index; under the format invariant every stored index is in
range, so the default is never taken. -/
def stGetD (table : List String) (i : Nat) : String :=
  (stGet table i).getD default

/-- Modelled from the spec (StringTable.find / PosIndex.resolve_id):
binary search over the sorted, deduplicated string table, returning the
index of the matching entry or none.  On a sorted table without
duplicates the result is the index of the unique occurrence, which this
linear recursion computes. -/
def stFind (table : List String) (s : String) : Option Nat :=
  match table with
  | [] => none
  | t :: ts => if t = s then some 0 else (stFind ts s).map (· + 1)

/-- Modelled from the spec (PosIndex.record_range, lower half):
std::lower_bound over the pos-sorted token array — the first index whose
pos_index is not below the queried id. -/
def lowerBound (id : Nat) (ts : List TokenRecord) : Nat :=
  match ts with
  | [] => 0
  | t :: ts => if t.posIndex < id then lowerBound id ts + 1 else 0

/-- Modelled from the spec (PosIndex.record_range, upper half):
std::upper_bound over the pos-sorted token array — the first index whose
pos_index exceeds the queried id. -/
def upperBound (id : Nat) (ts : List TokenRecord) : Nat :=
  match ts with
  | [] => 0
  | t :: ts => if t.posIndex ≤ id then upperBound id ts + 1 else 0

/-- Collects the head of each contiguous run of equal values, given the
previous run's value. -/
def collectRunsAux (prev : Nat) (l : List Nat) : List Nat :=
  match l with
  | [] => []
  | x :: xs => if x = prev then collectRunsAux prev xs else x :: collectRunsAux x xs

/-- Collects the first value of each contiguous run of equal values. -/
def collectRuns (l : List Nat) : List Nat :=
  match l with
  | [] => []
  | x :: xs => x :: collectRunsAux x xs

/-- Modelled from the spec (PosIndex.distinct_pos_ids): one linear scan
over the token array collecting the first pos_index of each contiguous
run. -/
def distinctPosIds (ts : List TokenRecord) : List Nat :=
  collectRuns (ts.map TokenRecord.posIndex)

/-- Modelled from the spec (UserPosEngine.GetPOSList): maps the distinct
POS ids through the string table. -/
def GetPOSList (e : UserPOS) : List String :=
  (distinctPosIds e.tokens).map (stGetD e.table)

/-- Modelled from the spec (UserPosEngine.GetPOSIDs): resolves a POS name
to its id, the index of the name in the string table. -/
def GetPOSIDs (e : UserPOS) (pos : String) : Option Nat :=
  stFind e.table pos

/-- Modelled from the spec (UserPosEngine.IsValidPOS): true exactly when
resolution of the name succeeds. -/
def IsValidPOS (e : UserPOS) (pos : String) : Bool :=
  (stFind e.table pos).isSome

/-- Builds the output token for one record: the stem key and value with
the decoded suffixes appended, the resolved POS id and the record's
conjugation id. -/
def mkToken (e : UserPOS) (key value : String) (id : Nat) (t : TokenRecord) : Token :=
  { key := key ++ stGetD e.table t.keySuffixIndex
    value := value ++ stGetD e.table t.valueSuffixIndex
    posId := id
    conjugationId := t.conjugationId }

/-- Modelled from the spec (UserPosEngine.GetTokens): resolves the POS
name; on failure returns false with the output untouched; on success
appends, for each record of the id's range in storage order, one token to
the output, and returns true.  The pair is the returned flag and the
final contents of the output collection. -/
def GetTokens (e : UserPOS) (key value pos : String) (out : List Token) :
    Bool × List Token :=
  match stFind e.table pos with
  | none => (false, out)
  | some id =>
      let lo := lowerBound id e.tokens
      let hi := upperBound id e.tokens
      (true, out ++ ((e.tokens.drop lo).take (hi - lo)).map (mkToken e key value id))

/-- Strict comparison of characters by code value, the byte-ascending
order in which the serialized string array is sorted. -/
def charLtb (a b : Char) : Bool :=
  a.val.toNat < b.val.toNat

/-- Lexicographic strict comparison of character sequences. -/
def strLtList : List Char → List Char → Bool
  | [], [] => false
  | [], _ :: _ => true
  | _ :: _, [] => false
  | a :: as, b :: bs =>
      if charLtb a b then true
      else if charLtb b a then false
      else strLtList as bs

/-- Lexicographic strict order on strings, byte-ascending as assumed for
the serialized string array. -/
def strLt (a b : String) : Prop :=
  strLtList a.data b.data = true

instance (a b : String) : Decidable (strLt a b) :=
  inferInstanceAs (Decidable (strLtList a.data b.data = true))

/-- The empty string, the identity of suffix concatenation. -/
def strEmpty : String :=
  ⟨[]⟩

/-- String table of the spec's literal scenario. -/
def specTable : List String :=
  ["", "Noun", "Verb", "ed", "s"]

/-- Token array of the spec's literal scenario. -/
def specTokens : List TokenRecord :=
  [⟨1, 0, 0, 10⟩, ⟨1, 4, 4, 11⟩, ⟨2, 3, 3, 20⟩]

/-- Engine of the spec's literal scenario. -/
def specEngine : UserPOS :=
  ⟨specTokens, specTable⟩

/-- Byte buffer encoding the first two records of the scenario. -/
def specBytes : List Nat :=
  [1, 0, 0, 0, 0, 0, 10, 0, 1, 0, 4, 4, 0, 0, 11, 0]

/-- A byte buffer whose length is not a multiple of 8. -/
def oddBytes : List Nat :=
  [1, 0, 0]

/-- Name of the POS queried in the scenario. -/
def sNoun : String :=
  "Noun"

/-- An unknown POS name from the scenario. -/
def sAdj : String :=
  "Adjective"

/-- Stem used in the scenario. -/
def sWalk : String :=
  "walk"

/-- A string-table entry that is a suffix, not a POS name. -/
def sEd : String :=
  "ed"

/-- The i-th decoded record is the record decoded at byte offset 8 * i. -/
theorem decodeAll_getD (bytes : List Nat) (i : Nat) (h : i < bytes.length / 8) :
    (decodeAll bytes).getD i default = decodeRecordAt bytes (8 * i) := by
  simp [decodeAll, List.getD_eq_getElem?_getD, List.getElem?_map, List.getElem?_range, h]

/-- The decoded token array has one record per 8-byte block. -/
theorem decodeAll_length (bytes : List Nat) :
    (decodeAll bytes).length = bytes.length / 8 := by
  simp [decodeAll]

/-- C7: every decoded field of the i-th record comes from a fixed
little-endian byte offset inside that record's 8-byte block: pos_index
from bytes [0, 2), value_suffix_index from [2, 4), key_suffix_index from
[4, 6) and conjugation_id from [6, 8). -/
theorem record_fields_little_endian (bytes : List Nat) (i : Nat)
    (h : i < bytes.length / 8) :
    ((decodeAll bytes).getD i default).posIndex = u16le bytes (8 * i) ∧
    ((decodeAll bytes).getD i default).valueSuffixIndex = u16le bytes (8 * i + 2) ∧
    ((decodeAll bytes).getD i default).keySuffixIndex = u16le bytes (8 * i + 4) ∧
    ((decodeAll bytes).getD i default).conjugationId = u16le bytes (8 * i + 6) := by
  rw [decodeAll_getD bytes i h]
  exact ⟨rfl, rfl, rfl, rfl⟩

/-- Witness for C7 at the second record of a concrete buffer. -/
theorem record_fields_little_endian_witness :
    1 < specBytes.length / 8 ∧
      ((decodeAll specBytes).getD 1 default).conjugationId = u16le specBytes (8 * 1 + 6) :=
  ⟨by decide, (record_fields_little_endian specBytes 1 (by decide)).2.2.2⟩

/-- C10: dereferencing the token-array iterator at any valid position
yields exactly the pos_index field of the record at that position — the
dereference operator is defined as pos_index, so comparisons over
dereferenced iterators compare POS indices. -/
theorem iter_deref_is_pos_index (bytes : List Nat) (i : Nat)
    (h : i < bytes.length / 8) :
    iterDeref bytes (iterAdvance 0 i) = iterPosIndex bytes (iterAdvance 0 i) ∧
    iterDeref bytes (iterAdvance 0 i) = ((decodeAll bytes).getD i default).posIndex := by
  refine ⟨rfl, ?_⟩
  rw [decodeAll_getD bytes i h]
  simp [iterDeref, iterPosIndex, iterAdvance, decodeRecordAt]

/-- Witness for C10 at the second record of a concrete buffer. -/
theorem iter_deref_is_pos_index_witness :
    iterDeref specBytes (iterAdvance 0 1) = ((decodeAll specBytes).getD 1 default).posIndex :=
  (iter_deref_is_pos_index specBytes 1 (by decide)).2

/-- C8: constructing the engine from a token-array buffer fails exactly
when the buffer length is not a multiple of 8, and on success the record
count is the buffer length divided by 8. -/
theorem create_requires_multiple_of_eight (bytes : List Nat) (table : List String) :
    (create bytes table = none ↔ bytes.length % 8 ≠ 0) ∧
    (∀ e, create bytes table = some e → e.tokens.length = bytes.length / 8) := by
  constructor
  · unfold create
    split <;> simp_all
  · intro e he
    unfold create at he
    split at he
    · cases he
      simp [decodeAll]
    · exact absurd he (by simp)

/-- Witness for C8: a 3-byte buffer is rejected; a 16-byte buffer yields
two records. -/
theorem create_requires_multiple_of_eight_witness :
    create oddBytes specTable = none ∧
      (⟨decodeAll specBytes, specTable⟩ : UserPOS).tokens.length = specBytes.length / 8 :=
  ⟨(create_requires_multiple_of_eight oddBytes specTable).1.mpr (by decide),
   (create_requires_multiple_of_eight specBytes specTable).2
     ⟨decodeAll specBytes, specTable⟩ rfl⟩

/-- C9: the string-table lookup returns the stored string for an index
in range and an explicit out-of-range failure otherwise. -/
theorem stGet_checked (table : List String) (i : Nat) :
    (∀ h : i < table.length, stGet table i = some (table.get ⟨i, h⟩)) ∧
    (table.length ≤ i → stGet table i = none) := by
  constructor
  · intro h
    exact List.get?_eq_get h
  · intro h
    exact List.get?_eq_none.mpr h

/-- Witness for C9 at an in-range and an out-of-range index. -/
theorem stGet_checked_witness :
    stGet specTable 1 = some (specTable.get ⟨1, by decide⟩) ∧ stGet specTable 9 = none :=
  ⟨(stGet_checked specTable 1).1 (by decide), (stGet_checked specTable 9).2 (by decide)⟩

/-- C2: querying tokens for a POS name that does not resolve returns
false and leaves the output collection exactly as it was. -/
theorem getTokens_unknown_pos_unchanged (e : UserPOS) (k v p : String)
    (out : List Token) (h : stFind e.table p = none) :
    GetTokens e k v p out = (false, out) := by
  unfold GetTokens
  rw [h]

/-- Witness for C2: an unknown POS name in the scenario engine. -/
theorem getTokens_unknown_pos_unchanged_witness :
    GetTokens specEngine sWalk sWalk sAdj [] = (false, []) :=
  getTokens_unknown_pos_unchanged specEngine sWalk sWalk sAdj [] (by decide)

/-- The lower bound never exceeds the upper bound. -/
theorem lowerBound_le_upperBound (id : Nat) (ts : List TokenRecord) :
    lowerBound id ts ≤ upperBound id ts := by
  induction ts with
  | nil => exact Nat.le_refl 0
  | cons t ts ih =>
      by_cases h : t.posIndex < id
      · simp only [lowerBound, upperBound, if_pos h, if_pos (Nat.le_of_lt h)]
        omega
      · simp only [lowerBound, if_neg h]
        exact Nat.zero_le _

/-- The upper bound never exceeds the array length. -/
theorem upperBound_le_length (id : Nat) (ts : List TokenRecord) :
    upperBound id ts ≤ ts.length := by
  induction ts with
  | nil => exact Nat.le_refl 0
  | cons t ts ih =>
      by_cases h : t.posIndex ≤ id
      · simp only [upperBound, if_pos h, List.length_cons]
        omega
      · simp only [upperBound, if_neg h, List.length_cons]
        exact Nat.zero_le _

/-- On a pos-sorted array, an index is below the lower bound exactly when
its record's pos_index is below the queried id. -/
theorem lt_lowerBound_iff (id : Nat) (ts : List TokenRecord)
    (hs : List.Pairwise (fun a b => a.posIndex ≤ b.posIndex) ts) :
    ∀ i (h : i < ts.length),
      (i < lowerBound id ts ↔ (ts.get ⟨i, h⟩).posIndex < id) := by
  induction ts with
  | nil =>
      intro i h
      exact absurd h (Nat.not_lt_zero i)
  | cons t ts ih =>
      rw [List.pairwise_cons] at hs
      obtain ⟨hhead, htail⟩ := hs
      intro i h
      cases i with
      | zero =>
          by_cases h1 : t.posIndex < id
          · simp only [lowerBound, if_pos h1, List.get]
            omega
          · simp only [lowerBound, if_neg h1, List.get]
            omega
      | succ j =>
          have hj : j < ts.length := Nat.lt_of_succ_lt_succ h
          by_cases h1 : t.posIndex < id
          · simp only [lowerBound, if_pos h1, List.get]
            rw [← ih htail j hj]
            omega
          · simp only [lowerBound, if_neg h1, List.get]
            have hmem : ts.get ⟨j, hj⟩ ∈ ts := List.get_mem ts j hj
            have := hhead _ hmem
            omega

/-- On a pos-sorted array, an index is below the upper bound exactly when
its record's pos_index is at most the queried id. -/
theorem lt_upperBound_iff (id : Nat) (ts : List TokenRecord)
    (hs : List.Pairwise (fun a b => a.posIndex ≤ b.posIndex) ts) :
    ∀ i (h : i < ts.length),
      (i < upperBound id ts ↔ (ts.get ⟨i, h⟩).posIndex ≤ id) := by
  induction ts with
  | nil =>
      intro i h
      exact absurd h (Nat.not_lt_zero i)
  | cons t ts ih =>
      rw [List.pairwise_cons] at hs
      obtain ⟨hhead, htail⟩ := hs
      intro i h
      cases i with
      | zero =>
          by_cases h1 : t.posIndex ≤ id
          · simp only [upperBound, if_pos h1, List.get]
            omega
          · simp only [upperBound, if_neg h1, List.get]
            omega
      | succ j =>
          have hj : j < ts.length := Nat.lt_of_succ_lt_succ h
          by_cases h1 : t.posIndex ≤ id
          · simp only [upperBound, if_pos h1, List.get]
            rw [← ih htail j hj]
            omega
          · simp only [upperBound, if_neg h1, List.get]
            have hmem : ts.get ⟨j, hj⟩ ∈ ts := List.get_mem ts j hj
            have := hhead _ hmem
            omega

/-- When no record carries the queried id the two bounds coincide. -/
theorem bounds_eq_of_no_match (id : Nat) (ts : List TokenRecord)
    (h : ∀ t ∈ ts, t.posIndex ≠ id) :
    lowerBound id ts = upperBound id ts := by
  induction ts with
  | nil => rfl
  | cons t ts ih =>
      have hne := h t (List.mem_cons_self t ts)
      have hrest : ∀ u ∈ ts, u.posIndex ≠ id :=
        fun u hu => h u (List.mem_cons_of_mem t hu)
      by_cases h1 : t.posIndex < id
      · have h2 : t.posIndex ≤ id := Nat.le_of_lt h1
        simp only [lowerBound, upperBound, if_pos h1, if_pos h2, ih hrest]
      · have h2 : ¬ t.posIndex ≤ id := by omega
        simp only [lowerBound, upperBound, if_neg h1, if_neg h2]

/-- C4: on a pos-sorted token array the range returned by the two
binary-search bounds is well formed and contains exactly the records
whose pos_index equals the queried id; with no matching record the range
is empty rather than an error. -/
theorem record_range_exact (id : Nat) (ts : List TokenRecord)
    (hs : List.Pairwise (fun a b => a.posIndex ≤ b.posIndex) ts) :
    lowerBound id ts ≤ upperBound id ts ∧
    upperBound id ts ≤ ts.length ∧
    (∀ i (h : i < ts.length),
      ((ts.get ⟨i, h⟩).posIndex = id ↔
        lowerBound id ts ≤ i ∧ i < upperBound id ts)) ∧
    ((∀ t ∈ ts, t.posIndex ≠ id) → lowerBound id ts = upperBound id ts) := by
  refine ⟨lowerBound_le_upperBound id ts, upperBound_le_length id ts, ?_,
    bounds_eq_of_no_match id ts⟩
  intro i h
  have hl := lt_lowerBound_iff id ts hs i h
  have hu := lt_upperBound_iff id ts hs i h
  omega

/-- Witness for C4 on the scenario token array at id 1. -/
theorem record_range_exact_witness :
    lowerBound 1 specTokens ≤ upperBound 1 specTokens ∧
      ((specTokens.get ⟨0, by decide⟩).posIndex = 1 ↔
        lowerBound 1 specTokens ≤ 0 ∧ 0 < upperBound 1 specTokens) :=
  ⟨(record_range_exact 1 specTokens (by decide)).1,
   (record_range_exact 1 specTokens (by decide)).2.2.1 0 (by decide)⟩

/-- Appending the empty string to a string leaves it unchanged. -/
theorem append_strEmpty (s : String) : s ++ strEmpty = s := by
  cases s with
  | mk data =>
      show String.mk (data ++ []) = String.mk data
      rw [List.append_nil]

/-- C1: when the POS name resolves to an id, GetTokens reports a match,
keeps the pre-existing output elements untouched and appends after them
one token per record of the id's record range in storage order; each
appended token is the stem key and value with the record's decoded
suffixes appended, the resolved POS id and the record's conjugation id,
so the stem is always a prefix of the produced key and value, with
equality when the decoded suffix is empty. -/
theorem getTokens_appends (e : UserPOS) (k v p : String) (out : List Token)
    (id : Nat) (h : stFind e.table p = some id) :
    (GetTokens e k v p out).1 = true ∧
    (GetTokens e k v p out).2 =
      out ++ ((e.tokens.drop (lowerBound id e.tokens)).take
        (upperBound id e.tokens - lowerBound id e.tokens)).map (mkToken e k v id) ∧
    (∀ j, j < out.length →
      (GetTokens e k v p out).2.getD j default = out.getD j default) ∧
    (∀ t ∈ (GetTokens e k v p out).2.drop out.length,
      (∃ suf, t.key = k ++ suf) ∧ (∃ suf, t.value = v ++ suf)) ∧
    (∀ rec : TokenRecord,
      mkToken e k v id rec =
        { key := k ++ stGetD e.table rec.keySuffixIndex
          value := v ++ stGetD e.table rec.valueSuffixIndex
          posId := id
          conjugationId := rec.conjugationId }) ∧
    (∀ rec : TokenRecord, stGetD e.table rec.keySuffixIndex = strEmpty →
      (mkToken e k v id rec).key = k) ∧
    (∀ rec : TokenRecord, stGetD e.table rec.valueSuffixIndex = strEmpty →
      (mkToken e k v id rec).value = v) := by
  have hG : GetTokens e k v p out =
      (true, out ++ ((e.tokens.drop (lowerBound id e.tokens)).take
        (upperBound id e.tokens - lowerBound id e.tokens)).map (mkToken e k v id)) := by
    unfold GetTokens
    rw [h]
  refine ⟨by rw [hG], by rw [hG], ?_, ?_, fun rec => rfl, ?_, ?_⟩
  · intro j hj
    rw [hG]
    simp only [List.getD_eq_getElem?_getD]
    rw [List.getElem?_append, if_pos hj]
  · rw [hG]
    simp only [List.drop_left]
    intro t ht
    obtain ⟨rec, _, rfl⟩ := List.mem_map.mp ht
    exact ⟨⟨_, rfl⟩, ⟨_, rfl⟩⟩
  · intro rec hsuf
    show k ++ stGetD e.table rec.keySuffixIndex = k
    rw [hsuf, append_strEmpty]
  · intro rec hsuf
    show v ++ stGetD e.table rec.valueSuffixIndex = v
    rw [hsuf, append_strEmpty]

/-- Witness for C1 on the scenario query. -/
theorem getTokens_appends_witness :
    (GetTokens specEngine sWalk sWalk sNoun []).1 = true :=
  (getTokens_appends specEngine sWalk sWalk sNoun [] 1 (by decide)).1

/-- Looking up the stored string of index j finds exactly j again when
the table has no duplicates. -/
theorem stFind_get (table : List String) (hn : table.Nodup) :
    ∀ j (h : j < table.length), stFind table (table.get ⟨j, h⟩) = some j := by
  induction table with
  | nil =>
      intro j h
      exact absurd h (Nat.not_lt_zero j)
  | cons t ts ih =>
      rw [List.nodup_cons] at hn
      obtain ⟨hnot, htail⟩ := hn
      intro j h
      cases j with
      | zero =>
          show (if t = t then some 0 else (stFind ts t).map (· + 1)) = some 0
          rw [if_pos rfl]
      | succ m =>
          have hm : m < ts.length := Nat.lt_of_succ_lt_succ h
          have hne : t ≠ ts.get ⟨m, hm⟩ := fun he => hnot (he ▸ List.get_mem ts m hm)
          show (if t = ts.get ⟨m, hm⟩ then some 0
              else (stFind ts (ts.get ⟨m, hm⟩)).map (· + 1)) = some (m + 1)
          rw [if_neg hne, ih htail m hm]
          rfl

/-- Resolution succeeds for every string present in the table. -/
theorem stFind_isSome_of_mem (table : List String) (s : String) (h : s ∈ table) :
    (stFind table s).isSome = true := by
  induction table with
  | nil => cases h
  | cons t ts ih =>
      by_cases he : t = s
      · simp [stFind, he]
      · rcases List.mem_cons.mp h with h1 | h2
        · exact absurd h1.symm he
        · simp [stFind, he, ih h2]

/-- Resolution fails for every string absent from the table. -/
theorem stFind_eq_none_of_not_mem (table : List String) (s : String)
    (h : s ∉ table) : stFind table s = none := by
  induction table with
  | nil => rfl
  | cons t ts ih =>
      have h1 : t ≠ s := fun he => h (he ▸ List.mem_cons_self t ts)
      have h2 : s ∉ ts := fun hm => h (List.mem_cons_of_mem t hm)
      simp [stFind, h1, ih h2]

/-- In-range defaulted lookup agrees with positional access. -/
theorem stGetD_eq_get (table : List String) (i : Nat) (h : i < table.length) :
    stGetD table i = table.get ⟨i, h⟩ := by
  simp [stGetD, stGet, List.getElem?_eq_getElem h, List.get_eq_getElem]

/-- C3: round-trip identity — resolving the i-th listed POS name returns
the i-th distinct POS id, and looking that id up in the string table
returns the same i-th listed name; a POS id is the position of its name
in the string table. -/
theorem pos_roundtrip (e : UserPOS) (i : Nat) (hn : e.table.Nodup)
    (hi : i < (distinctPosIds e.tokens).length)
    (hr : ∀ id ∈ distinctPosIds e.tokens, id < e.table.length) :
    GetPOSIDs e ((GetPOSList e).getD i default) =
      some ((distinctPosIds e.tokens).getD i 0) ∧
    stGet e.table ((distinctPosIds e.tokens).getD i 0) =
      some ((GetPOSList e).getD i default) := by
  have hi' : i < (GetPOSList e).length := by
    simpa [GetPOSList] using hi
  have hid : (distinctPosIds e.tokens).getD i 0 =
      (distinctPosIds e.tokens).get ⟨i, hi⟩ := List.getD_eq_get _ _ hi
  have hmem : (distinctPosIds e.tokens).get ⟨i, hi⟩ ∈ distinctPosIds e.tokens :=
    List.get_mem _ i hi
  have hlt : (distinctPosIds e.tokens).get ⟨i, hi⟩ < e.table.length := hr _ hmem
  have hgl : (GetPOSList e).getD i default =
      stGetD e.table ((distinctPosIds e.tokens).get ⟨i, hi⟩) := by
    rw [List.getD_eq_get _ _ hi']
    show (List.map (stGetD e.table) (distinctPosIds e.tokens)).get ⟨i, hi'⟩ = _
    simp [List.get_map]
  have hname : stGetD e.table ((distinctPosIds e.tokens).get ⟨i, hi⟩) =
      e.table.get ⟨(distinctPosIds e.tokens).get ⟨i, hi⟩, hlt⟩ :=
    stGetD_eq_get e.table _ hlt
  constructor
  · rw [hgl, hname, hid]
    exact stFind_get e.table hn _ hlt
  · rw [hid, hgl, hname]
    exact List.get?_eq_get hlt

/-- Witness for C3 at the second listed POS of the scenario engine. -/
theorem pos_roundtrip_witness :
    GetPOSIDs specEngine ((GetPOSList specEngine).getD 1 default) =
      some ((distinctPosIds specEngine.tokens).getD 1 0) :=
  (pos_roundtrip specEngine 1 (by decide) (by decide) (by decide)).1

/-- Counterexample for C5: in the spec's own scenario the suffix entry
of the string table is accepted by IsValidPOS although it is not in the
POS list, so validity is not equivalent to membership in GetPOSList. -/
theorem validity_counterexample :
    IsValidPOS specEngine sEd = true ∧ sEd ∉ GetPOSList specEngine := by
  decide

/-- C5 as amended: IsValidPOS agrees with GetPOSIDs succeeding; it is
true for every name GetPOSList returns and false for every name absent
from the string table (a name outside GetPOSList may still be valid when
it is a non-POS entry of the shared string table). -/
theorem validity_consistency (e : UserPOS)
    (hr : ∀ id ∈ distinctPosIds e.tokens, id < e.table.length) :
    (∀ s, IsValidPOS e s = (GetPOSIDs e s).isSome) ∧
    (∀ name ∈ GetPOSList e, IsValidPOS e name = true) ∧
    (∀ s, s ∉ e.table → IsValidPOS e s = false) := by
  refine ⟨fun s => rfl, ?_, ?_⟩
  · intro name hname
    obtain ⟨id, hid, rfl⟩ := List.mem_map.mp hname
    have hlt : id < e.table.length := hr id hid
    have hmem : stGetD e.table id ∈ e.table := by
      rw [stGetD_eq_get e.table id hlt]
      exact List.get_mem _ id hlt
    exact stFind_isSome_of_mem e.table _ hmem
  · intro s hs
    show (stFind e.table s).isSome = false
    rw [stFind_eq_none_of_not_mem e.table s hs]
    rfl

/-- Witness for C5 as amended, on a known POS of the scenario engine. -/
theorem validity_consistency_witness :
    IsValidPOS specEngine sNoun = (GetPOSIDs specEngine sNoun).isSome :=
  (validity_consistency specEngine (by decide)).1 sNoun

/-- Run collection only drops elements, never invents them. -/
theorem collectRunsAux_subset (prev : Nat) (l : List Nat) :
    ∀ y ∈ collectRunsAux prev l, y ∈ l := by
  induction l generalizing prev with
  | nil =>
      intro y hy
      simp [collectRunsAux] at hy
  | cons x xs ih =>
      intro y hy
      by_cases he : x = prev
      · simp only [collectRunsAux, if_pos he] at hy
        exact List.mem_cons_of_mem x (ih prev y hy)
      · simp only [collectRunsAux, if_neg he] at hy
        rcases List.mem_cons.mp hy with h1 | h2
        · exact h1 ▸ List.mem_cons_self x xs
        · exact List.mem_cons_of_mem x (ih x y h2)

/-- Every collected run head occurs in the scanned list. -/
theorem collectRuns_subset (l : List Nat) : ∀ y ∈ collectRuns l, y ∈ l := by
  cases l with
  | nil =>
      intro y hy
      simp [collectRuns] at hy
  | cons x xs =>
      intro y hy
      simp only [collectRuns] at hy
      rcases List.mem_cons.mp hy with h1 | h2
      · exact h1 ▸ List.mem_cons_self x xs
      · exact List.mem_cons_of_mem x (collectRunsAux_subset x xs y h2)

/-- Every run head collected after prev strictly exceeds prev, on a
non-decreasing tail bounded below by prev. -/
theorem collectRunsAux_lt (prev : Nat) (l : List Nat)
    (h1 : ∀ y ∈ l, prev ≤ y) (h2 : List.Pairwise (· ≤ ·) l) :
    ∀ y ∈ collectRunsAux prev l, prev < y := by
  induction l generalizing prev with
  | nil =>
      intro y hy
      simp [collectRunsAux] at hy
  | cons x xs ih =>
      rw [List.pairwise_cons] at h2
      obtain ⟨hx, hxs⟩ := h2
      intro y hy
      by_cases he : x = prev
      · simp only [collectRunsAux, if_pos he] at hy
        have h1' : ∀ y ∈ xs, prev ≤ y := fun y hy => h1 y (List.mem_cons_of_mem x hy)
        exact ih prev h1' hxs y hy
      · have hpx : prev < x :=
          Nat.lt_of_le_of_ne (h1 x (List.mem_cons_self x xs)) (fun hh => he hh.symm)
        simp only [collectRunsAux, if_neg he] at hy
        rcases List.mem_cons.mp hy with hh | hh
        · exact hh ▸ hpx
        · exact Nat.lt_trans hpx (ih x hx hxs y hh)

/-- Collected run heads are strictly increasing on a non-decreasing
tail. -/
theorem collectRunsAux_pairwise (prev : Nat) (l : List Nat)
    (h2 : List.Pairwise (· ≤ ·) l) :
    List.Pairwise (· < ·) (collectRunsAux prev l) := by
  induction l generalizing prev with
  | nil => exact List.Pairwise.nil
  | cons x xs ih =>
      rw [List.pairwise_cons] at h2
      obtain ⟨hx, hxs⟩ := h2
      by_cases he : x = prev
      · simp only [collectRunsAux, if_pos he]
        exact ih prev hxs
      · simp only [collectRunsAux, if_neg he]
        rw [List.pairwise_cons]
        exact ⟨collectRunsAux_lt x xs hx hxs, ih x hxs⟩

/-- Run heads of a non-decreasing list are strictly increasing. -/
theorem collectRuns_pairwise (l : List Nat) (h : List.Pairwise (· ≤ ·) l) :
    List.Pairwise (· < ·) (collectRuns l) := by
  cases l with
  | nil => exact List.Pairwise.nil
  | cons x xs =>
      rw [List.pairwise_cons] at h
      obtain ⟨hx, hxs⟩ := h
      simp only [collectRuns]
      rw [List.pairwise_cons]
      exact ⟨collectRunsAux_lt x xs hx hxs, collectRunsAux_pairwise x xs hxs⟩

/-- A character never compares strictly below itself. -/
theorem charLtb_self (a : Char) : charLtb a a = false := by
  simp [charLtb]

/-- A character sequence never compares strictly below itself. -/
theorem strLtList_self (l : List Char) : strLtList l l = false := by
  induction l with
  | nil => rfl
  | cons a as ih => simp [strLtList, charLtb_self, ih]

/-- The lexicographic string order is irreflexive, hence related strings
differ. -/
theorem strLt_ne {a b : String} (h : strLt a b) : a ≠ b := by
  intro he
  rw [he] at h
  simp [strLt, strLtList_self] at h

/-- C6: the POS list pairs every returned name with at least one token
record, lists the distinct ids in strictly ascending order, the names in
ascending lexicographic order, and contains no duplicates. -/
theorem pos_list_sorted_distinct (e : UserPOS)
    (hs : List.Pairwise (fun a b : TokenRecord => a.posIndex ≤ b.posIndex) e.tokens)
    (ht : List.Pairwise strLt e.table)
    (hr : ∀ id ∈ distinctPosIds e.tokens, id < e.table.length) :
    (∀ name ∈ GetPOSList e, ∃ t ∈ e.tokens, stGetD e.table t.posIndex = name) ∧
    List.Pairwise (· < ·) (distinctPosIds e.tokens) ∧
    List.Pairwise strLt (GetPOSList e) ∧
    (GetPOSList e).Nodup := by
  have hmapped : List.Pairwise (· ≤ ·) (e.tokens.map TokenRecord.posIndex) :=
    List.pairwise_map.mpr hs
  have hids : List.Pairwise (· < ·) (distinctPosIds e.tokens) :=
    collectRuns_pairwise _ hmapped
  have hnames : List.Pairwise strLt (GetPOSList e) := by
    apply List.pairwise_map.mpr
    apply hids.imp_of_mem
    intro a b ha hb hab
    have hla : a < e.table.length := hr a ha
    have hlb : b < e.table.length := hr b hb
    rw [stGetD_eq_get e.table a hla, stGetD_eq_get e.table b hlb]
    exact (List.pairwise_iff_get.mp ht) ⟨a, hla⟩ ⟨b, hlb⟩ hab
  refine ⟨?_, hids, hnames, ?_⟩
  · intro name hname
    obtain ⟨id, hid, rfl⟩ := List.mem_map.mp hname
    have : id ∈ e.tokens.map TokenRecord.posIndex := collectRuns_subset _ id hid
    obtain ⟨t, htm, hteq⟩ := List.mem_map.mp this
    exact ⟨t, htm, by rw [hteq]⟩
  · exact hnames.imp (fun h => strLt_ne h)

/-- Witness for C6 on the scenario engine. -/
theorem pos_list_sorted_distinct_witness :
    List.Pairwise (· < ·) (distinctPosIds specEngine.tokens) :=
  (pos_list_sorted_distinct specEngine (by decide) (by decide) (by decide)).2.1

end UserPos
